import Mathlib

/-!
Shallow embedding of the kakiato replay subsystem:
the timeline playback engine (`src/player/engine.ts`) and the state
reconstructor (`src/player/state.ts`), over the event model of
`src/core/types.ts`.

JS strings are modelled as `List Char` (one entry per UTF-16 code unit),
JS numbers used for times and speeds as `Rat`, and optional / nullable
fields as `Option`.  Wall-clock reads (`Date.now()`) become an explicit
`now : Rat` argument.
-/

namespace Kakiato

/-- Selection endpoint (`KakiatoSelectionPosition` in `src/core/types.ts`);
the `affinity` hint is never read by the replay subsystem and is omitted. -/
structure SelPos where
  index : Int
deriving DecidableEq, Repr

/-- The event union `KakiatoEvent` of `src/core/types.ts`.  Every variant
carries `time` and the optional `pos` caret hint; payload fields that the
replay subsystem never reads (`modifiers`, `segments`, `meta`) are omitted. -/
inductive KEvent where
  | keydown (time : Rat) (pos : Option Int) (key code : List Char)
  | keyup (time : Rat) (pos : Option Int) (key code : List Char)
  | beforeinput (time : Rat) (pos : Option Int) (inputType : List Char)
      (data text : Option (List Char))
  | input (time : Rat) (pos : Option Int) (inputType : List Char)
      (data text : Option (List Char))
  | compositionstart (time : Rat) (pos : Option Int) (data : Option (List Char))
  | compositionupdate (time : Rat) (pos : Option Int) (data : Option (List Char))
  | compositionend (time : Rat) (pos : Option Int) (data : Option (List Char))
  | selectionchange (time : Rat) (pos : Option Int) (anchor focus : SelPos)
  | focus (time : Rat) (pos : Option Int)
  | blur (time : Rat) (pos : Option Int)
  | custom (time : Rat) (pos : Option Int) (label : List Char)
deriving DecidableEq, Repr

/-- The `time` field shared by every event variant. -/
def KEvent.time : KEvent → Rat
  | .keydown t _ _ _ => t
  | .keyup t _ _ _ => t
  | .beforeinput t _ _ _ _ => t
  | .input t _ _ _ _ => t
  | .compositionstart t _ _ => t
  | .compositionupdate t _ _ => t
  | .compositionend t _ _ => t
  | .selectionchange t _ _ _ => t
  | .focus t _ => t
  | .blur t _ => t
  | .custom t _ _ => t

/-- `TextState` of `src/player/state.ts`. -/
structure TextState where
  text : List Char
  cursorPosition : Int
  selectionStart : Int
  selectionEnd : Int
  isComposing : Bool
  compositionText : List Char
deriving DecidableEq, Repr

namespace StateReconstructor

/-- The state built by the `StateReconstructor` constructor / `reset`. -/
def initState (initialText : List Char) : TextState :=
  { text := initialText
    cursorPosition := 0
    selectionStart := 0
    selectionEnd := 0
    isComposing := false
    compositionText := [] }

/-- JavaScript `String.prototype.substring(a, b)`: each argument is clamped
into `[0, length]` and the two are swapped when `a > b`. -/
def jsSubstring (s : List Char) (a b : Int) : List Char :=
  let n : Int := (s.length : Int)
  let a1 := min (max a 0) n
  let b1 := min (max b 0) n
  (s.take (max a1 b1).toNat).drop (min a1 b1).toNat

/-- `StateReconstructor.insertText` (`src/player/state.ts`):
`text.substring(0, pos) + data + text.substring(pos)`, cursor to the end of
the inserted text. -/
def insertText (st : TextState) (pos : Int) (data : List Char) : TextState :=
  { st with
      text := jsSubstring st.text 0 pos ++ data
                ++ jsSubstring st.text pos (st.text.length : Int)
      cursorPosition := pos + (data.length : Int) }

/-- `StateReconstructor.deleteBackward`: no-op when `pos ≤ 0`, otherwise
removes the unit before `pos` and moves the cursor to `pos - 1`. -/
def deleteBackward (st : TextState) (pos : Int) : TextState :=
  if pos ≤ 0 then st
  else
    { st with
        text := jsSubstring st.text 0 (pos - 1)
                  ++ jsSubstring st.text pos (st.text.length : Int)
        cursorPosition := pos - 1 }

/-- `StateReconstructor.deleteForward`: no-op when `pos ≥ text.length`,
otherwise removes the unit after `pos`; the cursor is left alone. -/
def deleteForward (st : TextState) (pos : Int) : TextState :=
  if (st.text.length : Int) ≤ pos then st
  else
    { st with
        text := jsSubstring st.text 0 pos
                  ++ jsSubstring st.text (pos + 1) (st.text.length : Int) }

/-- `StateReconstructor.handleInputEvent`: a full-text payload replaces the
buffer; otherwise a present `data` delta is dispatched on `inputType`
(insert / delete-backward / delete-forward; cut, drag and unknown input
types fall through as no-ops); finally a present `pos` overwrites the
cursor. -/
def handleInputEvent (st : TextState) (pos? : Option Int) (inputType : List Char)
    (data txt : Option (List Char)) : TextState :=
  let st1 :=
    match txt with
    | some t => { st with text := t }
    | none =>
      match data with
      | some d =>
        let pos := pos?.getD st.cursorPosition
        if inputType = "insertText".toList ∨ inputType = "insertCompositionText".toList then
          insertText st pos d
        else if inputType = "deleteContentBackward".toList then
          deleteBackward st pos
        else if inputType = "deleteContentForward".toList then
          deleteForward st pos
        else
          st
      | none => st
  match pos? with
  | some p => { st1 with cursorPosition := p }
  | none => st1

/-- `StateReconstructor.handleSelectionChange`: min/max of anchor and focus
into `selectionStart`/`selectionEnd`, cursor to the focus endpoint. -/
def handleSelectionChange (st : TextState) (anchor focus : SelPos) : TextState :=
  { st with
      selectionStart := min anchor.index focus.index
      selectionEnd := max anchor.index focus.index
      cursorPosition := focus.index }

/-- `StateReconstructor.applyEvent` (`src/player/state.ts`): the top-level
switch on `event.type`.  `beforeinput`, `focus`, `blur` and unmatched kinds
(`custom`) are no-ops. -/
def applyEvent (st : TextState) : KEvent → TextState
  | .input _ pos? it data txt => handleInputEvent st pos? it data txt
  | .beforeinput _ _ _ _ _ => st
  | .compositionstart _ _ data =>
      { st with isComposing := true, compositionText := data.getD [] }
  | .compositionupdate _ _ data =>
      { st with compositionText := data.getD [] }
  | .compositionend _ _ _ =>
      { st with isComposing := false, compositionText := [] }
  | .selectionchange _ _ anchor focus => handleSelectionChange st anchor focus
  | .keydown _ pos? _ _ =>
      match pos? with
      | some p => { st with cursorPosition := p }
      | none => st
  | .keyup _ pos? _ _ =>
      match pos? with
      | some p => { st with cursorPosition := p }
      | none => st
  | .focus _ _ => st
  | .blur _ _ => st
  | .custom _ _ _ => st

end StateReconstructor

namespace PlaybackEngine

/-- The mutable fields of `PlaybackEngine` (`src/player/engine.ts`).
`timeoutId` models the single pending `setTimeout`: the event value captured
by the scheduled closure together with the computed real-time delay
(`none` when no delivery is scheduled). -/
structure Engine where
  events : List KEvent
  currentIndex : Nat
  isPlaying : Bool
  speed : Rat
  loop : Bool
  timeoutId : Option (KEvent × Rat)
  startTime : Rat
  pausedAt : Rat
deriving DecidableEq, Repr

/-- `PlaybackEngine.loadEvents`: stores the array and resets `currentIndex`
and `pausedAt`; no other field is touched. -/
def loadEvents (es : List KEvent) (e : Engine) : Engine :=
  { e with events := es, currentIndex := 0, pausedAt := 0 }

/-- `PlaybackEngine.pause`: no-op when not playing; otherwise freezes the
recording-timeline position into `pausedAt` and clears the pending timeout. -/
def pause (now : Rat) (e : Engine) : Engine :=
  if e.isPlaying then
    { e with
        isPlaying := false
        pausedAt := (now - e.startTime) * e.speed
        timeoutId := none }
  else e

/-- `PlaybackEngine.scheduleNextEvent`: schedules the event at
`currentIndex` with delay `max 0 ((event.time - elapsed·speed) / speed)`;
past the end it either wraps (loop) and schedules index 0, or clears
`isPlaying`.  (With `loop` set and an empty array the JS code would spin
forever; that state is unreachable through `play`, and the model returns
the reset state there.) -/
def scheduleNextEvent (now : Rat) (e : Engine) : Engine :=
  if e.isPlaying then
    if h : e.currentIndex < e.events.length then
      let ev := e.events.get ⟨e.currentIndex, h⟩
      let delay := max 0 ((ev.time - (now - e.startTime) * e.speed) / e.speed)
      { e with timeoutId := some (ev, delay) }
    else if e.loop then
      let e1 := { e with currentIndex := 0, startTime := now, pausedAt := 0 }
      if h1 : 0 < e1.events.length then
        let ev := e1.events.get ⟨0, h1⟩
        let delay := max 0 ((ev.time - (now - e1.startTime) * e1.speed) / e1.speed)
        { e1 with timeoutId := some (ev, delay) }
      else e1
    else { e with isPlaying := false }
  else e

/-- `PlaybackEngine.play`: no-op when already playing or when no events are
loaded; otherwise sets `startTime := now - pausedAt / speed` and schedules
the next event. -/
def play (now : Rat) (e : Engine) : Engine :=
  if e.isPlaying then e
  else if e.events.length = 0 then e
  else
    scheduleNextEvent now
      { e with isPlaying := true, startTime := now - e.pausedAt / e.speed }

/-- `PlaybackEngine.getCurrentTime`: `(now - startTime) * speed` while
playing, else the frozen `pausedAt`. -/
def getCurrentTime (now : Rat) (e : Engine) : Rat :=
  if e.isPlaying then (now - e.startTime) * e.speed else e.pausedAt

/-- The scan loop of `PlaybackEngine.seek`: `targetIndex` starts at 0 and is
set to `i` for each `i` in order with `events[i].time ≤ t`, stopping at the
first failure.  `i` is the absolute index of the list head, `acc` the
current `targetIndex`. -/
def seekTargetIndexAux : List KEvent → Rat → Nat → Nat → Nat
  | [], _, _, acc => acc
  | ev :: rest, t, i, acc =>
      if ev.time ≤ t then seekTargetIndexAux rest t (i + 1) i else acc

/-- The `targetIndex` computed by `PlaybackEngine.seek(t)`. -/
def seekTargetIndex (es : List KEvent) (t : Rat) : Nat :=
  seekTargetIndexAux es t 0 0

/-- The values passed to `emitEvent` by the replay loop of
`PlaybackEngine.seek`: `events[i]` for `i = 0 .. targetIndex`.  `none`
models the JavaScript `undefined` read past the end of the array. -/
def seekEmitted (es : List KEvent) (t : Rat) : List (Option KEvent) :=
  (List.range (seekTargetIndex es t + 1)).map (fun i => es[i]?)

/-- `PlaybackEngine.seek`: pause, scan for `targetIndex`, set
`currentIndex := targetIndex` and `pausedAt := t`, synchronously replay
indices `0 .. targetIndex`, and resume playing when playback was active.
Returns the new engine state together with the replayed values. -/
def seek (now t : Rat) (e : Engine) : Engine × List (Option KEvent) :=
  let wasPlaying := e.isPlaying
  let e1 := pause now e
  let k := seekTargetIndex e.events t
  let e2 := { e1 with currentIndex := k, pausedAt := t }
  (if wasPlaying then play now e2 else e2, seekEmitted e.events t)

/-- `PlaybackEngine.setSpeed`: throws (second component) on `speed ≤ 0`
before touching anything; otherwise pauses if playing, updates the speed,
and resumes if it was playing. -/
def setSpeed (now s : Rat) (e : Engine) : Engine × Option (List Char) :=
  if s ≤ 0 then (e, some "Speed must be positive".toList)
  else
    let wasPlaying := e.isPlaying
    let e1 := if wasPlaying then pause now e else e
    let e2 := { e1 with speed := s }
    (if wasPlaying then play now e2 else e2, none)

/-- `PlaybackEngine.offEvent` on the handler array: `indexOf` plus
`splice(index, 1)`, i.e. removal of the first occurrence (no-op when the
handler is not registered).  Handlers are identified by `Nat` ids. -/
def offEventList (hs : List Nat) (h : Nat) : List Nat :=
  hs.erase h

/-- The side effect of invoking handler `h` during a delivery: `beh h` is
the handler id that `h`'s callback removes via `offEvent`, if any. -/
def invokeEffect (beh : Nat → Option Nat) (h : Nat) (hs : List Nat) : List Nat :=
  match beh h with
  | some r => offEventList hs r
  | none => hs

/-- The `for (const handler of this.onEventHandlers)` loop of
`PlaybackEngine.emitEvent`: the array iterator reads index `i` of the
*live* array, stops as soon as `i` reaches the current length, and each
invocation may mutate the array.  Returns the handlers invoked, in order.
`fuel` only bounds the recursion; `hs.length` iterations always suffice
because `i` grows by one per step and the length never grows. -/
def emitLoop (beh : Nat → Option Nat) : Nat → List Nat → Nat → List Nat
  | 0, _, _ => []
  | fuel + 1, hs, i =>
      if h : i < hs.length then
        hs.get ⟨i, h⟩ :: emitLoop beh fuel (invokeEffect beh (hs.get ⟨i, h⟩) hs) (i + 1)
      else []

/-- One `PlaybackEngine.emitEvent` delivery over handler list `hs` with
callback behaviour `beh`: the sequence of handlers invoked. -/
def emitEventHandlers (beh : Nat → Option Nat) (hs : List Nat) : List Nat :=
  emitLoop beh hs.length hs 0

end PlaybackEngine

open StateReconstructor PlaybackEngine

/-! ## Helper lemmas about `jsSubstring` -/

/-- `substring(0, b)` with `b` at least the length returns the whole string. -/
theorem jsSubstring_zero_ge (s : List Char) (b : Int) (h : (s.length : Int) ≤ b) :
    jsSubstring s 0 b = s := by
  unfold jsSubstring
  have h1 : min (max (0:Int) 0) ((s.length : Int)) = 0 := by omega
  have h2 : min (max b 0) ((s.length : Int)) = (s.length : Int) := by omega
  simp only [h1, h2]
  have h3 : max (0:Int) ((s.length : Int)) = (s.length : Int) := by omega
  have h4 : min (0:Int) ((s.length : Int)) = 0 := by omega
  simp [h3, h4]

/-- `substring(a, length)` with `a` at least the length returns the empty
string. -/
theorem jsSubstring_ge_len (s : List Char) (a : Int) (h : (s.length : Int) ≤ a) :
    jsSubstring s a (s.length : Int) = [] := by
  unfold jsSubstring
  have h1 : min (max a 0) ((s.length : Int)) = (s.length : Int) := by omega
  have h2 : min (max ((s.length : Int)) 0) ((s.length : Int)) = (s.length : Int) := by
    omega
  simp only [h1, h2, max_self, min_self]
  simp

/-! ## Claims about the state reconstructor -/

/-- C9: every `beforeinput` event is a complete no-op for `applyEvent`: the
resulting `TextState` is the input state, unchanged in all six fields, even
when the event carries a `data` delta or a full-text payload. -/
theorem c9_beforeinput_noop (st : TextState) (time : Rat) (pos? : Option Int)
    (it : List Char) (data txt : Option (List Char)) :
    applyEvent st (.beforeinput time pos? it data txt) = st := rfl

/-- C7: an `input` event carrying a full-text payload replaces the buffer
wholesale with that payload, and the delta branch is not applied: the
result is identical to the result on the same event with the `data` hint
stripped. -/
theorem c7_snapshot_precedence (st : TextState) (time : Rat) (pos? : Option Int)
    (it : List Char) (data : Option (List Char)) (T : List Char) :
    applyEvent st (.input time pos? it data (some T))
        = applyEvent st (.input time pos? it none (some T)) ∧
      (applyEvent st (.input time pos? it data (some T))).text = T := by
  constructor
  · rfl
  · cases pos? <;> rfl

/-- C8: a delta-only delete-backward input event whose effective position
(`pos` falling back to the cursor) is `≤ 0`, and a delta-only
delete-forward input event whose effective position is `≥` the buffer
length, leave the buffer unchanged. -/
theorem c8_boundary_delete_noop (st : TextState) (time : Rat) (pos? : Option Int)
    (d : List Char) :
    (pos?.getD st.cursorPosition ≤ 0 →
        (applyEvent st
            (.input time pos? "deleteContentBackward".toList (some d) none)).text
          = st.text) ∧
      ((st.text.length : Int) ≤ pos?.getD st.cursorPosition →
        (applyEvent st
            (.input time pos? "deleteContentForward".toList (some d) none)).text
          = st.text) := by
  constructor
  · intro hle
    show (match pos? with
      | some p => { deleteBackward st (pos?.getD st.cursorPosition) with cursorPosition := p }
      | none => deleteBackward st (pos?.getD st.cursorPosition)).text = st.text
    rw [deleteBackward, if_pos hle]
    cases pos? <;> rfl
  · intro hge
    show (match pos? with
      | some p => { deleteForward st (pos?.getD st.cursorPosition) with cursorPosition := p }
      | none => deleteForward st (pos?.getD st.cursorPosition)).text = st.text
    rw [deleteForward, if_pos hge]
    cases pos? <;> rfl

/-- Witness for C8 at concrete inputs: deleting backward at position 0 and
forward at position 2 of the two-character buffer `"ab"` leave it as is. -/
theorem c8_boundary_delete_noop_witness :
    (applyEvent (initState "ab".toList)
        (.input 0 (some 0) "deleteContentBackward".toList (some "x".toList) none)).text
      = "ab".toList ∧
    (applyEvent (initState "ab".toList)
        (.input 0 (some 2) "deleteContentForward".toList (some "x".toList) none)).text
      = "ab".toList :=
  ⟨(c8_boundary_delete_noop (initState "ab".toList) 0 (some 0) "x".toList).1 (by decide),
   (c8_boundary_delete_noop (initState "ab".toList) 0 (some 2) "x".toList).2 (by decide)⟩

/-- C10: a delta-only insert input event whose effective position exceeds
the buffer length appends the delta at the end: the new text is the old
text concatenated with the delta. -/
theorem c10_insert_past_end_appends (st : TextState) (time : Rat) (pos? : Option Int)
    (it : List Char) (d : List Char)
    (hit : it = "insertText".toList ∨ it = "insertCompositionText".toList)
    (hpos : (st.text.length : Int) < pos?.getD st.cursorPosition) :
    (applyEvent st (.input time pos? it (some d) none)).text = st.text ++ d := by
  show (match pos? with
    | some p =>
        { (if it = "insertText".toList ∨ it = "insertCompositionText".toList then
            insertText st (pos?.getD st.cursorPosition) d
          else if it = "deleteContentBackward".toList then
            deleteBackward st (pos?.getD st.cursorPosition)
          else if it = "deleteContentForward".toList then
            deleteForward st (pos?.getD st.cursorPosition)
          else st) with cursorPosition := p }
    | none =>
        if it = "insertText".toList ∨ it = "insertCompositionText".toList then
          insertText st (pos?.getD st.cursorPosition) d
        else if it = "deleteContentBackward".toList then
          deleteBackward st (pos?.getD st.cursorPosition)
        else if it = "deleteContentForward".toList then
          deleteForward st (pos?.getD st.cursorPosition)
        else st).text = st.text ++ d
  rw [if_pos hit]
  have h1 : jsSubstring st.text 0 (pos?.getD st.cursorPosition) = st.text :=
    jsSubstring_zero_ge st.text _ (le_of_lt hpos)
  have h2 : jsSubstring st.text (pos?.getD st.cursorPosition) (st.text.length : Int) = [] :=
    jsSubstring_ge_len st.text _ (le_of_lt hpos)
  cases pos? <;>
    simp only [Option.getD_some, Option.getD_none] at h1 h2 <;>
    simp [insertText, h1, h2]

/-- Witness for C10 at a concrete input: inserting `"xy"` at position 5 of
the two-character buffer `"ab"` yields `"abxy"`. -/
theorem c10_insert_past_end_appends_witness :
    (applyEvent (initState "ab".toList)
        (.input 0 (some 5) "insertText".toList (some "xy".toList) none)).text
      = "ab".toList ++ "xy".toList :=
  c10_insert_past_end_appends (initState "ab".toList) 0 (some 5) "insertText".toList
    "xy".toList (Or.inl rfl) (by decide)

/-- C4 fails on the code: `handleSelectionChange` stores the raw min/max of
the anchor and focus indices without clamping.  On buffer `"ab"` (length 2)
a `selectionchange` with anchor `-5` and focus `7` yields
`selectionStart = -5 < 0` and `selectionEnd = 7 > 2`. -/
theorem c4_counterexample :
    (applyEvent (initState "ab".toList)
        (.selectionchange 0 none ⟨-5⟩ ⟨7⟩)).selectionStart < 0 ∧
    (2 : Int) < (applyEvent (initState "ab".toList)
        (.selectionchange 0 none ⟨-5⟩ ⟨7⟩)).selectionEnd ∧
    (initState "ab".toList).text.length = 2 := by
  decide

/-- C4 (amended): after `applyEvent` on a `selectionchange` event,
`selectionStart`/`selectionEnd` are exactly the unclamped minimum and
maximum of the anchor and focus indices (they may lie outside
`[0, text.length]`), and `cursorPosition` is the focus index. -/
theorem c4_selection_unclamped (st : TextState) (time : Rat) (pos? : Option Int)
    (anchor focus : SelPos) :
    applyEvent st (.selectionchange time pos? anchor focus) =
      { st with
          selectionStart := min anchor.index focus.index
          selectionEnd := max anchor.index focus.index
          cursorPosition := focus.index } := rfl

/-! ## Claims about the playback engine: loadEvents, setSpeed, pause/resume -/

/-- A playing engine with a delivery scheduled, as left by `play()` mid
sequence: used to exhibit what `loadEvents` does not reset. -/
def playingEngine : Engine :=
  { events := [KEvent.focus 0 none, KEvent.focus 50 none]
    currentIndex := 1
    isPlaying := true
    speed := 1
    loop := false
    timeoutId := some (KEvent.focus 50 none, 10)
    startTime := 0
    pausedAt := 0 }

/-- C2 fails on the code: `loadEvents` does not reset a Playing engine to
Idle.  After `loadEvents` on a playing engine with a scheduled delivery,
`getIsPlaying()` still returns `true` and the pending timeout for an event
of the previous sequence is still scheduled. -/
theorem c2_counterexample :
    (loadEvents [] playingEngine).isPlaying = true ∧
      (loadEvents [] playingEngine).timeoutId
        = some (KEvent.focus 50 none, 10) := by
  decide

/-- C2 (amended): `loadEvents` stores the new array and resets
`currentIndex` and `pausedAt` (virtual time) to 0, but leaves `isPlaying`,
the pending scheduled delivery, the speed, `startTime` and the loop flag
untouched. -/
theorem c2_loadEvents_partial_reset (es : List KEvent) (e : Engine) :
    (loadEvents es e).events = es ∧
      (loadEvents es e).currentIndex = 0 ∧
      (loadEvents es e).pausedAt = 0 ∧
      (loadEvents es e).isPlaying = e.isPlaying ∧
      (loadEvents es e).timeoutId = e.timeoutId ∧
      (loadEvents es e).speed = e.speed ∧
      (loadEvents es e).startTime = e.startTime ∧
      (loadEvents es e).loop = e.loop :=
  ⟨rfl, rfl, rfl, rfl, rfl, rfl, rfl, rfl⟩

/-- C6: `setSpeed(s)` with `s ≤ 0` fails with the invalid-argument error
`"Speed must be positive"` and leaves the engine state — speed, index,
virtual time, playing flag and pending scheduled delivery — exactly as it
was (the returned state is the input state). -/
theorem c6_setSpeed_nonpositive_rejected (now s : Rat) (e : Engine) (h : s ≤ 0) :
    setSpeed now s e = (e, some "Speed must be positive".toList) := by
  unfold setSpeed
  rw [if_pos h]

/-- Witness for C6 at a concrete input: `setSpeed(-1)` on a playing engine
rejects and returns the state unchanged. -/
theorem c6_setSpeed_nonpositive_rejected_witness :
    setSpeed 100 (-1) playingEngine
      = (playingEngine, some "Speed must be positive".toList) :=
  c6_setSpeed_nonpositive_rejected 100 (-1) playingEngine (by decide)

/-- C5: for a paused engine at virtual time `V = pausedAt`, with positive
speed, and in a state reachable while paused (`currentIndex` within range,
or not looping, or nothing loaded), calling `play()` at any wall instant
`now` (i.e. after an arbitrary real-time delay) and reading the current
time at that same instant yields exactly `V` again; and while the resumed
engine is playing, the virtual time at wall instant `w` is exactly
`V + (w - now) * speed`. -/
theorem c5_pause_resume_exact (e : Engine) (now : Rat)
    (hp : e.isPlaying = false) (hs : 0 < e.speed)
    (hreach : e.currentIndex < e.events.length ∨ e.loop = false ∨ e.events = []) :
    getCurrentTime now (play now e) = e.pausedAt ∧
      ∀ w : Rat, (play now e).isPlaying = true →
        getCurrentTime w (play now e) = e.pausedAt + (w - now) * e.speed := by
  have hs0 : e.speed ≠ 0 := ne_of_gt hs
  by_cases hlen : e.events.length = 0
  · have hplay : play now e = e := by
      unfold play
      rw [if_neg (by simp [hp]), if_pos hlen]
    rw [hplay]
    refine ⟨by simp [getCurrentTime, hp], fun w hw => ?_⟩
    rw [hp] at hw
    exact absurd hw (by simp)
  · have hplay : play now e =
        scheduleNextEvent now
          { e with isPlaying := true, startTime := now - e.pausedAt / e.speed } := by
      unfold play
      rw [if_neg (by simp [hp]), if_neg hlen]
    by_cases hidx : e.currentIndex < e.events.length
    · have hsched : play now e =
          { e with
              isPlaying := true
              startTime := now - e.pausedAt / e.speed
              timeoutId := some
                (e.events.get ⟨e.currentIndex, hidx⟩,
                  max 0 (((e.events.get ⟨e.currentIndex, hidx⟩).time
                    - (now - (now - e.pausedAt / e.speed)) * e.speed) / e.speed)) } := by
        rw [hplay]
        unfold scheduleNextEvent
        simp [hidx]
      rw [hsched]
      constructor
      · simp only [getCurrentTime, if_pos rfl]
        field_simp
      · intro w _
        simp only [getCurrentTime, if_pos rfl]
        field_simp
        ring
    · have hloop : e.loop = false := by
        rcases hreach with h1 | h2 | h3
        · exact absurd h1 hidx
        · exact h2
        · exact absurd (by simp [h3]) hlen
      have hsched : play now e =
          { e with
              isPlaying := false
              startTime := now - e.pausedAt / e.speed } := by
        rw [hplay]
        unfold scheduleNextEvent
        simp [hidx, hloop]
      rw [hsched]
      refine ⟨by simp [getCurrentTime], fun w hw => ?_⟩
      simp at hw
  -- end

/-- A paused mid-sequence engine for the C5 witness: paused at virtual time
7 with speed 2. -/
def pausedEngine : Engine :=
  { events := [KEvent.focus 0 none, KEvent.focus 50 none]
    currentIndex := 1
    isPlaying := false
    speed := 2
    loop := false
    timeoutId := none
    startTime := 0
    pausedAt := 7 }

/-- Witness for C5 at a concrete input: resuming `pausedEngine` at wall
time 100 restores virtual time 7 exactly, and 3 wall units later the
virtual time is 7 + 3·2. -/
theorem c5_pause_resume_exact_witness :
    getCurrentTime 100 (play 100 pausedEngine) = 7 ∧
      getCurrentTime 103 (play 100 pausedEngine) = 7 + (103 - 100) * 2 := by
  have h := c5_pause_resume_exact pausedEngine 100 (by decide) (by decide)
    (Or.inl (by decide))
  exact ⟨h.1, h.2 103 (by decide)⟩

/-! ## Claim C1: seek -/

/-- Non-decreasing `time` across the event array: the producer contract
that the correctness of `seek` assumes. -/
abbrev TimesSorted (es : List KEvent) : Prop :=
  es.Pairwise (fun a b => a.time ≤ b.time)

/-- Length of the longest prefix of events with `time ≤ t`. -/
def qualLen (es : List KEvent) (t : Rat) : Nat :=
  (es.takeWhile (fun ev => decide (ev.time ≤ t))).length

theorem seekTargetIndexAux_eq (t : Rat) :
    ∀ (es : List KEvent) (i acc : Nat),
      seekTargetIndexAux es t i acc =
        if qualLen es t = 0 then acc else i + qualLen es t - 1 := by
  intro es
  induction es with
  | nil => intro i acc; simp [seekTargetIndexAux, qualLen]
  | cons ev rest ih =>
    intro i acc
    by_cases h : ev.time ≤ t
    · have hq : qualLen (ev :: rest) t = qualLen rest t + 1 := by
        simp [qualLen, List.takeWhile_cons, h]
      rw [show seekTargetIndexAux (ev :: rest) t i acc
            = if ev.time ≤ t then seekTargetIndexAux rest t (i + 1) i else acc from rfl]
      rw [if_pos h, ih (i + 1) i, hq]
      by_cases h0 : qualLen rest t = 0
      · simp [h0]
      · rw [if_neg h0, if_neg (by omega)]
        omega
    · have hq : qualLen (ev :: rest) t = 0 := by
        simp [qualLen, List.takeWhile_cons, h]
      rw [show seekTargetIndexAux (ev :: rest) t i acc
            = if ev.time ≤ t then seekTargetIndexAux rest t (i + 1) i else acc from rfl]
      rw [if_neg h, hq]
      simp

theorem seekTargetIndex_eq (es : List KEvent) (t : Rat) :
    seekTargetIndex es t = if qualLen es t = 0 then 0 else qualLen es t - 1 := by
  rw [seekTargetIndex, seekTargetIndexAux_eq]
  by_cases h : qualLen es t = 0 <;> simp [h]

/-- With non-decreasing times, the qualifying events form a prefix, so the
scan-until-failure prefix is the whole set of qualifying events. -/
theorem takeWhile_time_eq_filter (t : Rat) :
    ∀ es : List KEvent, TimesSorted es →
      es.takeWhile (fun ev => decide (ev.time ≤ t))
        = es.filter (fun ev => decide (ev.time ≤ t)) := by
  intro es
  induction es with
  | nil => intro _; rfl
  | cons ev rest ih =>
    intro hs
    obtain ⟨hhead, htail⟩ := List.pairwise_cons.mp hs
    by_cases h : ev.time ≤ t
    · simp [List.takeWhile_cons, List.filter_cons, h, ih htail]
    · have hrest : rest.filter (fun ev => decide (ev.time ≤ t)) = [] := by
        rw [List.filter_eq_nil_iff]
        intro x hx
        simp only [decide_eq_true_eq]
        intro hxt
        exact h (le_trans (hhead x hx) hxt)
      simp [List.takeWhile_cons, List.filter_cons, h, hrest]

theorem qualLen_pos_of_mem (es : List KEvent) (t : Rat) (hs : TimesSorted es)
    (hex : ∃ ev ∈ es, ev.time ≤ t) : 0 < qualLen es t := by
  obtain ⟨ev, hmem, hevt⟩ := hex
  cases es with
  | nil => cases hmem
  | cons e0 rest =>
    have h0 : e0.time ≤ t := by
      rcases List.mem_cons.mp hmem with heq | hm
      · exact heq ▸ hevt
      · exact le_trans ((List.pairwise_cons.mp hs).1 ev hm) hevt
    simp [qualLen, List.takeWhile_cons, h0]

theorem qualLen_le_length (es : List KEvent) (t : Rat) :
    qualLen es t ≤ es.length :=
  (List.takeWhile_prefix _).length_le

theorem take_qualLen (es : List KEvent) (t : Rat) :
    es.take (qualLen es t) = es.takeWhile (fun ev => decide (ev.time ≤ t)) :=
  (List.prefix_iff_eq_take.mp (List.takeWhile_prefix _)).symm

theorem range_map_getElem? (es : List KEvent) (n : Nat) (h : n ≤ es.length) :
    (List.range n).map (fun i => es[i]?) = (es.take n).map some := by
  apply List.ext_getElem
  · simp [Nat.min_eq_left h]
  · intro i h1 h2
    have hi : i < es.length := by
      simp only [List.length_map, List.length_range] at h1
      omega
    simp [List.getElem?_eq_getElem hi]

/-- With sorted times and at least one qualifying event, the values that
`seek(t)` replays are exactly the qualifying events, in array order. -/
theorem seekEmitted_eq (es : List KEvent) (t : Rat) (hs : TimesSorted es)
    (hex : ∃ ev ∈ es, ev.time ≤ t) :
    seekEmitted es t = (es.filter (fun ev => decide (ev.time ≤ t))).map some := by
  have hq : 0 < qualLen es t := qualLen_pos_of_mem es t hs hex
  have hk : seekTargetIndex es t + 1 = qualLen es t := by
    rw [seekTargetIndex_eq, if_neg (by omega)]
    omega
  rw [seekEmitted, hk, range_map_getElem? es _ (qualLen_le_length es t),
    take_qualLen, takeWhile_time_eq_filter t es hs]

theorem seekTargetIndex_lt_length (es : List KEvent) (t : Rat)
    (hne : es ≠ []) : seekTargetIndex es t < es.length := by
  have hlen : 0 < es.length := List.length_pos.mpr hne
  have hle := qualLen_le_length es t
  rw [seekTargetIndex_eq]
  by_cases h : qualLen es t = 0
  · simp [h]; omega
  · rw [if_neg h]; omega

/-- The engine state produced by `seek`: `currentIndex` is set to the found
index itself and `pausedAt` to exactly `t`, whether or not playback
resumes. -/
theorem seek_state_fields (e : Engine) (now t : Rat)
    (hk : seekTargetIndex e.events t < e.events.length) :
    (seek now t e).1.currentIndex = seekTargetIndex e.events t ∧
      (seek now t e).1.pausedAt = t := by
  unfold seek
  by_cases hp : e.isPlaying
  · simp only [hp, if_pos]
    have hpause : pause now e =
        { e with
            isPlaying := false
            pausedAt := (now - e.startTime) * e.speed
            timeoutId := none } := by
      unfold pause; rw [if_pos hp]
    rw [hpause]
    have hne : e.events.length ≠ 0 := by omega
    unfold play
    rw [if_neg (by simp), if_neg (by simpa using hne)]
    unfold scheduleNextEvent
    simp [hk]
  · have hpause : pause now e = e := by
      unfold pause; rw [if_neg hp]
    simp [hp, hpause]

/-- C1 fails on the code in two ways.  With events at times 0 and 100 and
`seek(0)`, the highest qualifying index is 0 but `currentIndex` is set to 0,
not 1, so the found event would be delivered again on resume.  And with a
single event at time 5 and `seek(0)`, no event has `time ≤ 0`, yet the
replay loop still delivers the entry at index 0 instead of the empty
prefix. -/
theorem c1_counterexample :
    (seek 0 0
        { events := [KEvent.focus 0 none, KEvent.focus 100 none]
          currentIndex := 0, isPlaying := false, speed := 1, loop := false
          timeoutId := none, startTime := 0, pausedAt := 0 }).1.currentIndex
        ≠ seekTargetIndex [KEvent.focus 0 none, KEvent.focus 100 none] 0 + 1 ∧
      seekEmitted [KEvent.focus 5 none] 0 ≠ [] := by
  decide

/-- C1 (amended): for a loaded sequence with non-decreasing times and at
least one event with `time ≤ t`, `seek(t)` synchronously delivers, in array
order, exactly the events at indices 0 through the highest index whose
`time ≤ t`; afterwards `pausedAt` is exactly `t` (so `getCurrentTime()`
returns `t` when the engine stays paused), but the next index to be played
is that highest index itself — not plus one — so the found event is
delivered again on resume; a subscribed reconstructor driven from the
initial snapshot through the replayed prefix computes the same `TextState`
as applying every event with `time ≤ t` in order. -/
theorem c1_seek_corrected (e : Engine) (now t : Rat)
    (hsorted : TimesSorted e.events)
    (hex : ∃ ev ∈ e.events, ev.time ≤ t) :
    seekEmitted e.events t
        = (e.events.filter (fun ev => decide (ev.time ≤ t))).map some ∧
      (seek now t e).1.currentIndex = seekTargetIndex e.events t ∧
      seekTargetIndex e.events t + 1
        = (e.events.filter (fun ev => decide (ev.time ≤ t))).length ∧
      (seek now t e).1.pausedAt = t ∧
      (e.isPlaying = false → getCurrentTime now (seek now t e).1 = t) ∧
      ∀ st : TextState,
        (e.events.take (seekTargetIndex e.events t + 1)).foldl applyEvent st
          = (e.events.filter (fun ev => decide (ev.time ≤ t))).foldl applyEvent st := by
  have hne : e.events ≠ [] := by
    obtain ⟨ev, hmem, _⟩ := hex
    exact List.ne_nil_of_mem hmem
  have hk := seekTargetIndex_lt_length e.events t hne
  have hfields := seek_state_fields e now t hk
  have hq : 0 < qualLen e.events t := qualLen_pos_of_mem e.events t hsorted hex
  have hksucc : seekTargetIndex e.events t + 1 = qualLen e.events t := by
    rw [seekTargetIndex_eq, if_neg (by omega)]
    omega
  have htake : e.events.take (seekTargetIndex e.events t + 1)
      = e.events.filter (fun ev => decide (ev.time ≤ t)) := by
    rw [hksucc, take_qualLen, takeWhile_time_eq_filter t e.events hsorted]
  refine ⟨seekEmitted_eq e.events t hsorted hex, hfields.1, ?_, hfields.2, ?_, ?_⟩
  · rw [← htake, List.length_take]
    omega
  · intro hp
    have hseek : (seek now t e).1 = { pause now e with
        currentIndex := seekTargetIndex e.events t, pausedAt := t } := by
      unfold seek
      simp [hp]
    have hpause : pause now e = e := by
      unfold pause; rw [if_neg (by simp [hp])]
    rw [hseek, hpause]
    simp [getCurrentTime, hp]
  · intro st
    rw [htake]

/-- An idle engine loaded with three time-sorted events, for the C1
witness. -/
def seekWitnessEngine : Engine :=
  { events :=
      [KEvent.focus 0 none,
       KEvent.input 30 (some 1) "insertText".toList (some "h".toList) (some "h".toList),
       KEvent.focus 120 none]
    currentIndex := 0
    isPlaying := false
    speed := 1
    loop := false
    timeoutId := none
    startTime := 0
    pausedAt := 0 }

/-- Witness for C1 (amended) at a concrete input: seeking to 50 replays
exactly the two events at times 0 and 30 and freezes the virtual time at
exactly 50. -/
theorem c1_seek_corrected_witness :
    seekEmitted seekWitnessEngine.events 50
        = (seekWitnessEngine.events.filter (fun ev => decide (ev.time ≤ 50))).map some ∧
      (seek 0 50 seekWitnessEngine).1.currentIndex
        = seekTargetIndex seekWitnessEngine.events 50 ∧
      getCurrentTime 0 (seek 0 50 seekWitnessEngine).1 = 50 := by
  have h := c1_seek_corrected seekWitnessEngine 0 50 (by decide)
    ⟨KEvent.focus 0 none, by decide, by decide⟩
  exact ⟨h.1, h.2.1, h.2.2.2.2.1 (by decide)⟩

/-! ## Claim C3: handler removal during delivery -/

/-- A delivery step over a suffix in which no invoked handler removes
anything: the loop simply walks the remaining elements of the live array. -/
theorem emitLoop_no_removal (beh : Nat → Option Nat) :
    ∀ (fuel : Nat) (hs : List Nat) (i : Nat),
      (∀ x ∈ hs.drop i, beh x = none) → hs.length ≤ fuel + i →
      emitLoop beh fuel hs i = hs.drop i := by
  intro fuel
  induction fuel with
  | zero =>
    intro hs i _ hlen
    rw [show emitLoop beh 0 hs i = [] from rfl]
    exact (List.drop_eq_nil_of_le (by omega)).symm
  | succ fuel ih =>
    intro hs i hnone hlen
    by_cases h : i < hs.length
    · rw [show emitLoop beh (fuel + 1) hs i
          = if h : i < hs.length then
              hs.get ⟨i, h⟩ :: emitLoop beh fuel (invokeEffect beh (hs.get ⟨i, h⟩) hs) (i + 1)
            else [] from rfl, dif_pos h]
      have hmem : hs.get ⟨i, h⟩ ∈ hs.drop i := by
        rw [List.drop_eq_getElem_cons h]
        exact List.mem_cons_self _ _
      have hbeh : beh (hs.get ⟨i, h⟩) = none := hnone _ hmem
      have heff : invokeEffect beh (hs.get ⟨i, h⟩) hs = hs := by
        have hb2 : beh hs[i] = none := hbeh
        simp [invokeEffect, hb2]
      rw [heff, ih hs (i + 1) ?hsub (by omega)]
      · rw [List.drop_eq_getElem_cons h]
        rfl
      case hsub =>
        intro x hx
        apply hnone
        have hdd : hs.drop (i + 1) = (hs.drop i).drop 1 := by
          rw [List.drop_drop]
        rw [hdd] at hx
        exact List.drop_subset 1 _ hx
    · rw [show emitLoop beh (fuel + 1) hs i
          = if h : i < hs.length then
              hs.get ⟨i, h⟩ :: emitLoop beh fuel (invokeEffect beh (hs.get ⟨i, h⟩) hs) (i + 1)
            else [] from rfl, dif_neg h]
      exact (List.drop_eq_nil_of_le (by omega)).symm

/-- The delivery loop from index `i ≤ j`, when the handler at index `j`
removes the handler at the strictly later index `r` and no other handler
removes anything: the loop walks `hs` with the element at `r` deleted. -/
theorem emitLoop_single_later_removal (beh : Nat → Option Nat) (hs : List Nat)
    (hnd : hs.Nodup) (j r : Nat) (hj : j < hs.length) (hr : r < hs.length)
    (hjr : j < r)
    (hbeh : beh (hs.get ⟨j, hj⟩) = some (hs.get ⟨r, hr⟩))
    (hothers : ∀ x ∈ hs, x ≠ hs.get ⟨j, hj⟩ → beh x = none) :
    ∀ (fuel i : Nat), i ≤ j → hs.length ≤ fuel + i →
      emitLoop beh fuel hs i = (hs.eraseIdx r).drop i := by
  have hlen' : (hs.eraseIdx r).length = hs.length - 1 :=
    List.length_eraseIdx_of_lt hr
  intro fuel
  induction fuel with
  | zero => intro i hij hlen; omega
  | succ fuel ih =>
    intro i hij hlen
    have hi : i < hs.length := by omega
    rw [show emitLoop beh (fuel + 1) hs i
        = if h : i < hs.length then
            hs.get ⟨i, h⟩ :: emitLoop beh fuel (invokeEffect beh (hs.get ⟨i, h⟩) hs) (i + 1)
          else [] from rfl, dif_pos hi]
    have hilt : i < (hs.eraseIdx r).length := by omega
    have hgete : (hs.eraseIdx r)[i] = hs[i] :=
      List.getElem_eraseIdx_of_lt hs r i hilt (by omega)
    by_cases hij' : i = j
    · subst hij'
      have hget : hs.get ⟨i, hi⟩ = hs.get ⟨i, hj⟩ := rfl
      have herase : hs.erase (hs.get ⟨r, hr⟩) = hs.eraseIdx r := by
        rw [List.get_eq_getElem, ← List.eraseIdx_indexOf_eq_erase]
        congr 1
        exact List.indexOf_getElem hnd r hr
      have heff : invokeEffect beh (hs.get ⟨i, hi⟩) hs = hs.eraseIdx r := by
        rw [hget]
        simp only [invokeEffect, hbeh, offEventList]
        exact herase
      rw [heff]
      have hnd' : (hs.eraseIdx r).Nodup := (List.eraseIdx_sublist hs r).nodup hnd
      have hjlt : i < (hs.eraseIdx r).length := hilt
      rw [emitLoop_no_removal beh fuel (hs.eraseIdx r) (i + 1) ?hnones (by omega)]
      · rw [List.drop_eq_getElem_cons hjlt, hgete]
        rfl
      case hnones =>
        intro x hx
        apply hothers
        · exact (List.eraseIdx_sublist hs r).subset (List.drop_subset _ _ hx)
        · intro hcontra
          have hxj : x = (hs.eraseIdx r)[i] := by rw [hgete, hcontra]; rfl
          have hsplit := List.take_append_drop (i + 1) (hs.eraseIdx r)
          have hdisj : (List.take (i + 1) (hs.eraseIdx r)).Disjoint
              (List.drop (i + 1) (hs.eraseIdx r)) := by
            have hnda : ((List.take (i + 1) (hs.eraseIdx r))
                ++ List.drop (i + 1) (hs.eraseIdx r)).Nodup := by
              rw [hsplit]; exact hnd'
            exact (List.nodup_append.mp hnda).2.2
          have hjt : i < (List.take (i + 1) (hs.eraseIdx r)).length := by
            rw [List.length_take]; omega
          have hmemtake : (hs.eraseIdx r)[i] ∈ List.take (i + 1) (hs.eraseIdx r) := by
            have hgt : (List.take (i + 1) (hs.eraseIdx r))[i] = (hs.eraseIdx r)[i] :=
              List.getElem_take _
            rw [← hgt]
            exact List.getElem_mem _
          exact hdisj hmemtake (hxj ▸ hx)
    · have hilj : i < j := by omega
      have hne : hs.get ⟨i, hi⟩ ≠ hs.get ⟨j, hj⟩ := by
        intro hcontra
        have := (List.Nodup.getElem_inj_iff hnd).mp hcontra
        omega
      have hbnone : beh (hs.get ⟨i, hi⟩) = none :=
        hothers _ (List.get_mem hs i hi) hne
      have heff : invokeEffect beh (hs.get ⟨i, hi⟩) hs = hs := by
        have hb2 : beh hs[i] = none := hbnone
        simp [invokeEffect, hb2]
      rw [heff, ih (i + 1) (by omega) (by omega)]
      rw [List.drop_eq_getElem_cons hilt, hgete]
      rfl

/-- C3 fails on the code: `emitEvent` iterates the live handler array, so a
handler that removes itself during delivery shifts its successors left and
the array iterator skips the next handler.  With handlers 0 and 1 where
handler 0 removes handler 0, only handler 0 is invoked: handler 1, which
was registered when delivery began and was never removed, is not invoked
(the claim requires it to be invoked exactly once). -/
theorem c3_counterexample :
    emitEventHandlers (fun h => if h = 0 then some 0 else none) [0, 1] = [0] ∧
      (1 : Nat) ∉ emitEventHandlers (fun h => if h = 0 then some 0 else none) [0, 1] := by
  decide

/-- C3 (amended): removing a handler during an in-flight delivery never
throws (the delivery loop is total and always produces its invocation
list), and when the removed handler occurs strictly later in the handler
list than the handler whose callback removes it, every other handler that
was registered when delivery began is still invoked exactly once for that
event, in registration order: the invocation list is exactly the handler
list with the removed entry deleted.  (When the removal is at or before
the invoking handler's own position, the live-array iteration instead
skips the handler immediately after the invoking one, as the
counterexample shows.) -/
theorem c3_remove_later_handler_delivery (beh : Nat → Option Nat) (hs : List Nat)
    (hnd : hs.Nodup) (j r : Nat) (hj : j < hs.length) (hr : r < hs.length)
    (hjr : j < r)
    (hbeh : beh (hs.get ⟨j, hj⟩) = some (hs.get ⟨r, hr⟩))
    (hothers : ∀ x ∈ hs, x ≠ hs.get ⟨j, hj⟩ → beh x = none) :
    emitEventHandlers beh hs = hs.eraseIdx r := by
  rw [emitEventHandlers,
    emitLoop_single_later_removal beh hs hnd j r hj hr hjr hbeh hothers
      hs.length 0 (by omega) (by omega),
    List.drop_zero]

/-- Witness for C3 (amended) at a concrete input: with handlers 0, 1, 2
where handler 0 removes handler 2, the delivery invokes exactly handlers
0 and 1, each once, in order. -/
theorem c3_remove_later_handler_delivery_witness :
    emitEventHandlers (fun h => if h = 0 then some 2 else none) [0, 1, 2] = [0, 1] := by
  have h := c3_remove_later_handler_delivery
    (fun h => if h = 0 then some 2 else none) [0, 1, 2] (by decide) 0 2
    (by decide) (by decide) (by decide) (by decide) (by decide)
  simpa using h

end Kakiato
